import Mathlib

/-!
Verification of the lock-free sparse bit-set `lockfree::atomic_bitset`
(`src/atomic-bitset.h`) against its specification.

The embedding models the data structure with mathematical integers (`Nat`);
machine words are `Nat` values kept below `2 ^ wordBits` by the structural
invariant `Inv`.  The public operations `set`, `reset(pos)`, `reset()` and
`test` are modelled with their sequential (single-thread) semantics: the
`compare_exchange` of `set` cannot fail when no other thread runs, so its
failure arm is not reachable in the sequential model.  The retry loops
(`while (tries < MaxTries)`) are modelled by structural recursion on the
remaining fuel `MaxTries - tries`.  A separate small-step interleaving
machine (`cStep` below) models the concurrent execution of `set` by several
threads targeting the same bucket and the same machine word.
-/

set_option linter.unusedVariables false

namespace Lockfree

/-- Status codes of the public operations (`enum class status`, line 20 of
`src/atomic-bitset.h`). -/
inductive Status where
  | success
  | failed
  | not_found
  | yes
  | no
deriving DecidableEq, Repr

/-- Template parameters of
`atomic_bitset<Capacity, BitsetWidth, BitsetWord, MaxTries, Index>`.
`wordBitsLog` is the base-2 logarithm of the bit width of `BitsetWord`:
every admissible `BitsetWord` is an unsigned integer type whose width
`8 * sizeof(BitsetWord)` is a power of two (the default `uint32_t` gives
`wordBitsLog = 5`). -/
structure Config where
  capacity : Nat
  bitsetWidth : Nat
  wordBitsLog : Nat
  maxTries : Nat
deriving DecidableEq, Repr

/-- `8 * sizeof(BitsetWord)`: the number of bits of one machine word. -/
def Config.wordBits (cfg : Config) : Nat := 2 ^ cfg.wordBitsLog

/-- Words per bucket: `(1 << BitsetWidth) / (8 * sizeof(BitsetWord))`
(the size of the `words` array, line 145). -/
def Config.wordCount (cfg : Config) : Nat := 2 ^ cfg.bitsetWidth / cfg.wordBits

/-- Sanity conditions on the template parameters: at least one whole word per
bucket (`8 * sizeof(BitsetWord) ≤ 2 ^ BitsetWidth`, true of every
instantiation in the repository) and a positive retry budget
(`MaxTries ≥ 1`; the default is `32`). -/
def Config.ok (cfg : Config) : Prop :=
  cfg.wordBitsLog ≤ cfg.bitsetWidth ∧ 0 < cfg.maxTries

instance (cfg : Config) : Decidable cfg.ok :=
  inferInstanceAs (Decidable (_ ∧ _))

/-- `atomic_bitset::relocate` (lines 173-181): decompose a bit position into
`(bucket, index, offset)`.  The C++ function returns `bucket` (used by the
callers as the expected `cardinality`); here the caller reads it as `.1`. -/
def relocate (cfg : Config) (pos : Nat) : Nat × Nat × Nat :=
  let bucket := pos >>> cfg.bitsetWidth
  let sub := pos &&& (2 ^ cfg.bitsetWidth - 1)
  let index := sub / cfg.wordBits
  let offset := sub &&& (cfg.wordBits - 1)
  (bucket, index, offset)

/-- One bucket (`struct BitSetElement`, lines 143-170).  `words` models the
fixed-size array `std::atomic<BitsetWord> words[...]`; every element built by
the operations below has `words.length = cfg.wordCount`. -/
structure BitSetElement where
  cardinality : Nat
  words : List Nat
deriving DecidableEq, Repr

/-- The `BitSetElement` constructor (lines 146-154): zero every word, then,
when `offset <= 8 * sizeof(BitsetWord) - 1`, fetch-OR `1 << offset` into
`words[index]`. -/
def BitSetElement.init (cfg : Config) (cardinality index offset : Nat) : BitSetElement :=
  let zeroed : List Nat := List.replicate cfg.wordCount 0
  if offset ≤ cfg.wordBits - 1 then
    ⟨cardinality, zeroed.set index (zeroed.getD index 0 ||| 1 <<< offset)⟩
  else
    ⟨cardinality, zeroed⟩

/-- `BitSetElement::set` (lines 156-159): `words[index].fetch_or(1 << offset)`. -/
def BitSetElement.set (e : BitSetElement) (index offset : Nat) : BitSetElement :=
  ⟨e.cardinality, e.words.set index (e.words.getD index 0 ||| 1 <<< offset)⟩

/-- `BitSetElement::reset` (lines 161-164):
`words[index].fetch_and(~(1 << offset))`.  The complement of `1 << offset`
truncated to the word width is `(2 ^ wordBits - 1) ^^^ (1 <<< offset)`
(every call site has `offset < wordBits`). -/
def BitSetElement.reset (cfg : Config) (e : BitSetElement) (index offset : Nat) : BitSetElement :=
  ⟨e.cardinality,
    e.words.set index (e.words.getD index 0 &&& ((2 ^ cfg.wordBits - 1) ^^^ 1 <<< offset))⟩

/-- `BitSetElement::test` (lines 166-169): `words[index].load() & (1 << offset)`
converted to `bool`. -/
def BitSetElement.test (e : BitSetElement) (index offset : Nat) : Bool :=
  (e.words.getD index 0 &&& 1 <<< offset) != 0

/-- The state of an `atomic_bitset`: the slot array
`std::atomic<BitSetElement*> elements[Capacity]` (line 171), one
`Option BitSetElement` per slot (`none` models the null pointer). -/
structure atomic_bitset where
  elements : List (Option BitSetElement)
deriving DecidableEq, Repr

/-- The `atomic_bitset` constructor (lines 26-31): every slot starts empty. -/
def atomic_bitset.mkEmpty (cfg : Config) : atomic_bitset :=
  ⟨List.replicate cfg.capacity none⟩

/-- The `while (tries < MaxTries)` loop of `atomic_bitset::set` (lines 40-72)
under sequential execution, by recursion on the remaining fuel
`MaxTries - tries`.  With a single thread the slot cannot change between the
load of line 43 and the CAS of line 50, so the CAS of the `nullptr` branch
always succeeds.  On a `cardinality` mismatch the loop retries with the
addressing recomputed from `bucket << BitsetWidth` (line 70); the expected
`cardinality` itself is not recomputed. -/
def setLoop (cfg : Config) (s : atomic_bitset) (cardinality : Nat) :
    Nat → Nat → Nat → Nat → Status × atomic_bitset
  | 0, _bucket, _index, _offset => (.failed, s)
  | fuel + 1, bucket, index, offset =>
    match s.elements.getD bucket none with
    | none =>
      (.success,
        ⟨s.elements.set bucket (some (BitSetElement.init cfg cardinality index offset))⟩)
    | some elt =>
      if elt.cardinality = cardinality then
        (.success, ⟨s.elements.set bucket (some (elt.set index offset))⟩)
      else
        let r := relocate cfg (bucket <<< cfg.bitsetWidth)
        setLoop cfg s cardinality fuel r.1 r.2.1 r.2.2

/-- `atomic_bitset::set` (lines 33-78), sequential semantics: the returned
status together with the state after the call.  Line 37 makes
`cardinality` the bucket id of `pos`. -/
def atomic_bitset.set (cfg : Config) (s : atomic_bitset) (pos : Nat) :
    Status × atomic_bitset :=
  let r := relocate cfg pos
  setLoop cfg s r.1 cfg.maxTries r.1 r.2.1 r.2.2

/-- `atomic_bitset::reset()` (lines 80-92), bulk clear: for every non-empty
slot, store `0` into each word of its bucket (the loop of line 85 runs over
all `wordCount` entries of the fixed-size array, i.e. the whole array). -/
def atomic_bitset.resetAll (s : atomic_bitset) : Status × atomic_bitset :=
  (.success,
    ⟨s.elements.map (Option.map fun e => ⟨e.cardinality, e.words.map fun _ => 0⟩)⟩)

/-- The `while (tries < MaxTries)` loop of `atomic_bitset::reset(Index)`
(lines 100-114). -/
def resetLoop (cfg : Config) (s : atomic_bitset) (cardinality : Nat) :
    Nat → Nat → Nat → Nat → Status × atomic_bitset
  | 0, _bucket, _index, _offset => (.not_found, s)
  | fuel + 1, bucket, index, offset =>
    match s.elements.getD bucket none with
    | none => (.success, s)
    | some elt =>
      if elt.cardinality = cardinality then
        (.success, ⟨s.elements.set bucket (some (elt.reset cfg index offset))⟩)
      else
        let r := relocate cfg (bucket <<< cfg.bitsetWidth)
        resetLoop cfg s cardinality fuel r.1 r.2.1 r.2.2

/-- `atomic_bitset::reset(Index pos)` (lines 94-117), sequential semantics. -/
def atomic_bitset.reset (cfg : Config) (s : atomic_bitset) (pos : Nat) :
    Status × atomic_bitset :=
  let r := relocate cfg pos
  resetLoop cfg s r.1 cfg.maxTries r.1 r.2.1 r.2.2

/-- The `while (tries < MaxTries)` loop of `atomic_bitset::test` (lines 125-138). -/
def testLoop (cfg : Config) (s : atomic_bitset) (cardinality : Nat) :
    Nat → Nat → Nat → Nat → Status
  | 0, _bucket, _index, _offset => .not_found
  | fuel + 1, bucket, index, offset =>
    match s.elements.getD bucket none with
    | none => .no
    | some elt =>
      if elt.cardinality = cardinality then
        (if elt.test index offset then .yes else .no)
      else
        let r := relocate cfg (bucket <<< cfg.bitsetWidth)
        testLoop cfg s cardinality fuel r.1 r.2.1 r.2.2

/-- `atomic_bitset::test` (lines 119-140). -/
def atomic_bitset.test (cfg : Config) (s : atomic_bitset) (pos : Nat) : Status :=
  let r := relocate cfg pos
  testLoop cfg s r.1 cfg.maxTries r.1 r.2.1 r.2.2

/-- One public call, used to form sequential call traces. -/
inductive Op where
  | set (pos : Nat)
  | reset (pos : Nat)
  | resetAll
  | test (pos : Nat)
deriving DecidableEq, Repr

/-- State after one call (a `test` call does not change the state). -/
def applyOp (cfg : Config) (s : atomic_bitset) : Op → atomic_bitset
  | .set pos => (atomic_bitset.set cfg s pos).2
  | .reset pos => (atomic_bitset.reset cfg s pos).2
  | .resetAll => (atomic_bitset.resetAll s).2
  | .test _ => s

/-- State after a sequence of calls. -/
def applyOps (cfg : Config) (s : atomic_bitset) (l : List Op) : atomic_bitset :=
  l.foldl (applyOp cfg) s

/-- A position is valid when its bucket id is below `Capacity`, i.e.
`pos < Capacity * 2 ^ BitsetWidth`. -/
def validPos (cfg : Config) (pos : Nat) : Prop :=
  pos < cfg.capacity * 2 ^ cfg.bitsetWidth

instance (cfg : Config) (pos : Nat) : Decidable (validPos cfg pos) :=
  inferInstanceAs (Decidable (_ < _))

/-- Validity of one call: every position argument is valid. -/
def Op.valid (cfg : Config) : Op → Prop
  | .set pos => validPos cfg pos
  | .reset pos => validPos cfg pos
  | .resetAll => True
  | .test pos => validPos cfg pos

instance (cfg : Config) (op : Op) : Decidable (op.valid cfg) := by
  cases op <;> simp only [Op.valid] <;> infer_instance

/-- Invariant of one slot `b`: an installed bucket carries the identity tag of
its slot, a word array of the right length, and word values below
`2 ^ wordBits`. -/
def slotInv (cfg : Config) (b : Nat) : Option BitSetElement → Prop
  | none => True
  | some e =>
    e.cardinality = b ∧ e.words.length = cfg.wordCount ∧ ∀ w ∈ e.words, w < 2 ^ cfg.wordBits

instance (cfg : Config) (b : Nat) (o : Option BitSetElement) : Decidable (slotInv cfg b o) := by
  cases o <;> simp only [slotInv] <;> infer_instance

/-- Structural invariant of reachable states. -/
def Inv (cfg : Config) (s : atomic_bitset) : Prop :=
  s.elements.length = cfg.capacity ∧
  ∀ b < cfg.capacity, slotInv cfg b (s.elements.getD b none)

instance (cfg : Config) (s : atomic_bitset) : Decidable (Inv cfg s) :=
  inferInstanceAs (Decidable (_ ∧ _))

/-- States reachable from a fresh `atomic_bitset` by valid calls. -/
def Reachable (cfg : Config) (s : atomic_bitset) : Prop :=
  ∃ l : List Op, (∀ op ∈ l, op.valid cfg) ∧ s = applyOps cfg (atomic_bitset.mkEmpty cfg) l

/-! ### Arithmetic facts about the address decomposition -/

theorem relocate_fst (cfg : Config) (pos : Nat) :
    (relocate cfg pos).1 = pos / 2 ^ cfg.bitsetWidth := by
  simp [relocate, Nat.shiftRight_eq_div_pow]

theorem relocate_index (cfg : Config) (pos : Nat) :
    (relocate cfg pos).2.1 = pos % 2 ^ cfg.bitsetWidth / 2 ^ cfg.wordBitsLog := by
  simp [relocate, Nat.and_pow_two_sub_one_eq_mod, Config.wordBits]

theorem relocate_offset (cfg : Config) (pos : Nat) :
    (relocate cfg pos).2.2 = pos % 2 ^ cfg.bitsetWidth % 2 ^ cfg.wordBitsLog := by
  simp [relocate, Nat.and_pow_two_sub_one_eq_mod, Config.wordBits]

theorem relocate_bucket_lt (cfg : Config) (pos : Nat) (h : validPos cfg pos) :
    (relocate cfg pos).1 < cfg.capacity := by
  rw [relocate_fst]
  exact (Nat.div_lt_iff_lt_mul (Nat.pos_pow_of_pos _ (by norm_num))).mpr h

theorem relocate_offset_lt (cfg : Config) (pos : Nat) :
    (relocate cfg pos).2.2 < cfg.wordBits := by
  rw [relocate_offset, Config.wordBits]
  exact Nat.mod_lt _ (Nat.pos_pow_of_pos _ (by norm_num))

theorem relocate_index_lt (cfg : Config) (pos : Nat)
    (hk : cfg.wordBitsLog ≤ cfg.bitsetWidth) :
    (relocate cfg pos).2.1 < cfg.wordCount := by
  rw [relocate_index, Config.wordCount, Config.wordBits, Nat.pow_div hk (by norm_num)]
  refine (Nat.div_lt_iff_lt_mul (Nat.pos_pow_of_pos _ (by norm_num))).mpr ?_
  calc pos % 2 ^ cfg.bitsetWidth < 2 ^ cfg.bitsetWidth :=
        Nat.mod_lt _ (Nat.pos_pow_of_pos _ (by norm_num))
    _ = 2 ^ (cfg.bitsetWidth - cfg.wordBitsLog) * 2 ^ cfg.wordBitsLog := by
        rw [← pow_add, Nat.sub_add_cancel hk]

/-- A position is recomposed from its decomposition; hence the decomposition
is injective. -/
theorem relocate_recompose (cfg : Config) (pos : Nat) :
    2 ^ cfg.bitsetWidth * (relocate cfg pos).1
      + (2 ^ cfg.wordBitsLog * (relocate cfg pos).2.1 + (relocate cfg pos).2.2) = pos := by
  rw [relocate_fst, relocate_index, relocate_offset, Nat.div_add_mod, Nat.div_add_mod]

theorem relocate_inj (cfg : Config) (p q : Nat)
    (h : relocate cfg p = relocate cfg q) : p = q := by
  have hp := relocate_recompose cfg p
  have hq := relocate_recompose cfg q
  rw [h] at hp
  omega

/-! ### List helper lemmas -/

theorem getD_set_self {α : Type} (l : List α) (i : Nat) (a d : α) (h : i < l.length) :
    (l.set i a).getD i d = a := by
  simp [List.getD, List.getElem?_set, h]

theorem getD_set_ne {α : Type} (l : List α) (i j : Nat) (a : α) (d : α) (h : i ≠ j) :
    (l.set i a).getD j d = l.getD j d := by
  simp [List.getD, List.getElem?_set, h]

theorem getD_replicate {α : Type} (n i : Nat) (d : α) :
    (List.replicate n d).getD i d = d := by
  rcases Nat.lt_or_ge i n with h | h
  · simp [List.getD, List.getElem?_replicate, h]
  · simp only [List.getD]
    rw [List.get?_eq_none.mpr (by simpa using h)]
    rfl

theorem getD_map_option {α β : Type} (g : α → β) (l : List (Option α)) (b : Nat) :
    (l.map (Option.map g)).getD b none = Option.map g (l.getD b none) := by
  cases h : l[b]? with
  | none => simp [List.getD, h]
  | some o => simp [List.getD, h]

theorem getD_map_zero (l : List Nat) (i : Nat) :
    (l.map fun _ => 0).getD i 0 = 0 := by
  cases h : l[i]? with
  | none => simp [List.getD, h]
  | some w => simp [List.getD, h]

theorem lt_length_of_getD_eq_some {α : Type} (l : List (Option α)) (b : Nat) (a : α)
    (h : l.getD b none = some a) : b < l.length := by
  by_contra hb
  rw [List.getD, List.get?_eq_none.mpr (by omega)] at h
  simp at h

/-! ### Bit-level helper lemmas -/

theorem bitTestD (w o : Nat) : ((w &&& 1 <<< o) != 0) = w.testBit o := by
  rw [Nat.one_shiftLeft, Nat.and_two_pow]
  have h2 : (2 : Nat) ^ o ≠ 0 := by positivity
  cases h : w.testBit o <;> simp [h2]

theorem testBit_or_one_shiftLeft (w o j : Nat) :
    (w ||| 1 <<< o).testBit j = (w.testBit j || decide (o = j)) := by
  rw [Nat.one_shiftLeft, Nat.testBit_lor, Nat.testBit_two_pow]

theorem mask_testBit (wb o j : Nat) :
    ((2 ^ wb - 1) ^^^ 1 <<< o).testBit j
      = Bool.xor (decide (j < wb)) (decide (o = j)) := by
  rw [Nat.one_shiftLeft, Nat.testBit_xor, Nat.testBit_two_pow_sub_one, Nat.testBit_two_pow]

/-! ### One-step characterizations of the operations

Sequentially, each loop decides in its first iteration unless the defensive
`cardinality` mismatch branch is taken; these lemmas characterize the first
iteration on an empty slot and on an installed bucket with a matching tag. -/

theorem set_eq_empty (cfg : Config) (s : atomic_bitset) (pos : Nat) (hM : 0 < cfg.maxTries)
    (h : s.elements.getD (relocate cfg pos).1 none = none) :
    atomic_bitset.set cfg s pos =
      (.success, ⟨s.elements.set (relocate cfg pos).1
        (some (BitSetElement.init cfg (relocate cfg pos).1
          (relocate cfg pos).2.1 (relocate cfg pos).2.2))⟩) := by
  obtain ⟨n, hn⟩ := Nat.exists_eq_succ_of_ne_zero (Nat.pos_iff_ne_zero.mp hM)
  unfold atomic_bitset.set
  rw [hn]
  simp only [setLoop, h]

theorem set_eq_mem (cfg : Config) (s : atomic_bitset) (pos : Nat) (e : BitSetElement)
    (hM : 0 < cfg.maxTries)
    (h : s.elements.getD (relocate cfg pos).1 none = some e)
    (hc : e.cardinality = (relocate cfg pos).1) :
    atomic_bitset.set cfg s pos =
      (.success, ⟨s.elements.set (relocate cfg pos).1
        (some (e.set (relocate cfg pos).2.1 (relocate cfg pos).2.2))⟩) := by
  obtain ⟨n, hn⟩ := Nat.exists_eq_succ_of_ne_zero (Nat.pos_iff_ne_zero.mp hM)
  unfold atomic_bitset.set
  rw [hn]
  simp only [setLoop, h, hc, if_true]

theorem reset_eq_empty (cfg : Config) (s : atomic_bitset) (pos : Nat) (hM : 0 < cfg.maxTries)
    (h : s.elements.getD (relocate cfg pos).1 none = none) :
    atomic_bitset.reset cfg s pos = (.success, s) := by
  obtain ⟨n, hn⟩ := Nat.exists_eq_succ_of_ne_zero (Nat.pos_iff_ne_zero.mp hM)
  unfold atomic_bitset.reset
  rw [hn]
  simp only [resetLoop, h]

theorem reset_eq_mem (cfg : Config) (s : atomic_bitset) (pos : Nat) (e : BitSetElement)
    (hM : 0 < cfg.maxTries)
    (h : s.elements.getD (relocate cfg pos).1 none = some e)
    (hc : e.cardinality = (relocate cfg pos).1) :
    atomic_bitset.reset cfg s pos =
      (.success, ⟨s.elements.set (relocate cfg pos).1
        (some (e.reset cfg (relocate cfg pos).2.1 (relocate cfg pos).2.2))⟩) := by
  obtain ⟨n, hn⟩ := Nat.exists_eq_succ_of_ne_zero (Nat.pos_iff_ne_zero.mp hM)
  unfold atomic_bitset.reset
  rw [hn]
  simp only [resetLoop, h, hc, if_true]

theorem test_eq_empty (cfg : Config) (s : atomic_bitset) (pos : Nat) (hM : 0 < cfg.maxTries)
    (h : s.elements.getD (relocate cfg pos).1 none = none) :
    atomic_bitset.test cfg s pos = .no := by
  obtain ⟨n, hn⟩ := Nat.exists_eq_succ_of_ne_zero (Nat.pos_iff_ne_zero.mp hM)
  unfold atomic_bitset.test
  rw [hn]
  simp only [testLoop, h]

theorem test_eq_mem (cfg : Config) (s : atomic_bitset) (pos : Nat) (e : BitSetElement)
    (hM : 0 < cfg.maxTries)
    (h : s.elements.getD (relocate cfg pos).1 none = some e)
    (hc : e.cardinality = (relocate cfg pos).1) :
    atomic_bitset.test cfg s pos =
      (if e.test (relocate cfg pos).2.1 (relocate cfg pos).2.2 then .yes else .no) := by
  obtain ⟨n, hn⟩ := Nat.exists_eq_succ_of_ne_zero (Nat.pos_iff_ne_zero.mp hM)
  unfold atomic_bitset.test
  rw [hn]
  simp only [testLoop, h, hc, if_true]

/-- With an in-range offset, the constructor installs exactly the requested bit. -/
theorem init_eq (cfg : Config) (c i o : Nat) (ho : o < cfg.wordBits) :
    BitSetElement.init cfg c i o = ⟨c, (List.replicate cfg.wordCount 0).set i (1 <<< o)⟩ := by
  unfold BitSetElement.init
  rw [if_pos (by omega), getD_replicate]
  norm_num

theorem wordBits_pos (cfg : Config) : 0 < cfg.wordBits :=
  Nat.pos_pow_of_pos _ (by norm_num)

theorem one_shiftLeft_lt (cfg : Config) (o : Nat) (ho : o < cfg.wordBits) :
    1 <<< o < 2 ^ cfg.wordBits := by
  rw [Nat.one_shiftLeft]
  exact Nat.pow_lt_pow_right (by norm_num) ho

/-! ### Preservation of the structural invariant -/

theorem Inv_mkEmpty (cfg : Config) : Inv cfg (atomic_bitset.mkEmpty cfg) := by
  refine ⟨by simp [atomic_bitset.mkEmpty], fun b hb => ?_⟩
  rw [atomic_bitset.mkEmpty, getD_replicate]
  trivial

theorem Inv_set (cfg : Config) (s : atomic_bitset) (pos : Nat)
    (hok : cfg.ok) (hInv : Inv cfg s) (hpos : validPos cfg pos) :
    Inv cfg (atomic_bitset.set cfg s pos).2 := by
  have hb : (relocate cfg pos).1 < cfg.capacity := relocate_bucket_lt cfg pos hpos
  have ho : (relocate cfg pos).2.2 < cfg.wordBits := relocate_offset_lt cfg pos
  have hi : (relocate cfg pos).2.1 < cfg.wordCount := relocate_index_lt cfg pos hok.1
  cases h : s.elements.getD (relocate cfg pos).1 none with
  | none =>
    rw [set_eq_empty cfg s pos hok.2 h]
    refine ⟨by simpa using hInv.1, fun b hb' => ?_⟩
    by_cases hbb : b = (relocate cfg pos).1
    · subst hbb
      rw [getD_set_self _ _ _ _ (by rw [hInv.1]; exact hb), init_eq cfg _ _ _ ho]
      refine ⟨rfl, by simp, fun w hw => ?_⟩
      rcases List.mem_or_eq_of_mem_set hw with hw' | hw'
      · rw [List.eq_of_mem_replicate hw']
        exact Nat.pos_pow_of_pos _ (by norm_num)
      · rw [hw']
        exact one_shiftLeft_lt cfg _ ho
    · rw [getD_set_ne _ _ _ _ _ (fun hc => hbb hc.symm)]
      exact hInv.2 b hb'
  | some e =>
    have hse := hInv.2 _ hb
    rw [h] at hse
    obtain ⟨hc, hlen, hbound⟩ := hse
    rw [set_eq_mem cfg s pos e hok.2 h hc]
    refine ⟨by simpa using hInv.1, fun b hb' => ?_⟩
    by_cases hbb : b = (relocate cfg pos).1
    · subst hbb
      rw [getD_set_self _ _ _ _ (by rw [hInv.1]; exact hb)]
      refine ⟨hc, by simpa [BitSetElement.set] using hlen, fun w hw => ?_⟩
      rcases List.mem_or_eq_of_mem_set hw with hw' | hw'
      · exact hbound w hw'
      · rw [hw']
        refine Nat.or_lt_two_pow ?_ (one_shiftLeft_lt cfg _ ho)
        have hil : (relocate cfg pos).2.1 < e.words.length := by rw [hlen]; exact hi
        rw [List.getD_eq_getElem _ _ hil]
        exact hbound _ (List.getElem_mem hil)
    · rw [getD_set_ne _ _ _ _ _ (fun hc' => hbb hc'.symm)]
      exact hInv.2 b hb'

theorem Inv_reset (cfg : Config) (s : atomic_bitset) (pos : Nat)
    (hok : cfg.ok) (hInv : Inv cfg s) (hpos : validPos cfg pos) :
    Inv cfg (atomic_bitset.reset cfg s pos).2 := by
  have hb : (relocate cfg pos).1 < cfg.capacity := relocate_bucket_lt cfg pos hpos
  cases h : s.elements.getD (relocate cfg pos).1 none with
  | none =>
    rw [reset_eq_empty cfg s pos hok.2 h]
    exact hInv
  | some e =>
    have hse := hInv.2 _ hb
    rw [h] at hse
    obtain ⟨hc, hlen, hbound⟩ := hse
    rw [reset_eq_mem cfg s pos e hok.2 h hc]
    refine ⟨by simpa using hInv.1, fun b hb' => ?_⟩
    by_cases hbb : b = (relocate cfg pos).1
    · subst hbb
      rw [getD_set_self _ _ _ _ (by rw [hInv.1]; exact hb)]
      refine ⟨hc, by simpa [BitSetElement.reset] using hlen, fun w hw => ?_⟩
      rcases List.mem_or_eq_of_mem_set hw with hw' | hw'
      · exact hbound w hw'
      · rw [hw']
        rcases Nat.lt_or_ge (relocate cfg pos).2.1 e.words.length with hil | hil
        · refine lt_of_le_of_lt Nat.and_le_left ?_
          rw [List.getD_eq_getElem _ _ hil]
          exact hbound _ (List.getElem_mem hil)
        · refine lt_of_le_of_lt Nat.and_le_left ?_
          simp only [List.getD]
          rw [List.get?_eq_none.mpr (by omega)]
          exact Nat.pos_pow_of_pos _ (by norm_num)
    · rw [getD_set_ne _ _ _ _ _ (fun hc' => hbb hc'.symm)]
      exact hInv.2 b hb'

theorem Inv_resetAll (cfg : Config) (s : atomic_bitset)
    (hInv : Inv cfg s) : Inv cfg (atomic_bitset.resetAll s).2 := by
  refine ⟨by simpa [atomic_bitset.resetAll] using hInv.1, fun b hb => ?_⟩
  have hmap := getD_map_option
    (fun e : BitSetElement => (⟨e.cardinality, e.words.map fun _ => 0⟩ : BitSetElement))
    s.elements b
  simp only [atomic_bitset.resetAll]
  rw [hmap]
  cases h : s.elements.getD b none with
  | none => trivial
  | some e =>
    have hse := hInv.2 _ hb
    rw [h] at hse
    obtain ⟨hc, hlen, hbound⟩ := hse
    refine ⟨hc, by simpa using hlen, fun w hw => ?_⟩
    obtain ⟨w', hw', rfl⟩ := List.mem_map.mp hw
    exact Nat.pos_pow_of_pos _ (by norm_num)

theorem Inv_applyOp (cfg : Config) (s : atomic_bitset) (op : Op)
    (hok : cfg.ok) (hInv : Inv cfg s) (hop : op.valid cfg) :
    Inv cfg (applyOp cfg s op) := by
  cases op with
  | set pos => exact Inv_set cfg s pos hok hInv hop
  | reset pos => exact Inv_reset cfg s pos hok hInv hop
  | resetAll => exact Inv_resetAll cfg s hInv
  | test pos => exact hInv

theorem Inv_applyOps (cfg : Config) (s : atomic_bitset) (l : List Op)
    (hok : cfg.ok) (hInv : Inv cfg s) (hl : ∀ op ∈ l, op.valid cfg) :
    Inv cfg (applyOps cfg s l) := by
  induction l generalizing s with
  | nil => exact hInv
  | cons op l ih =>
    exact ih (applyOp cfg s op)
      (Inv_applyOp cfg s op hok hInv (hl op (by simp)))
      (fun op' h' => hl op' (by simp [h']))

theorem Inv_of_Reachable (cfg : Config) (s : atomic_bitset)
    (hok : cfg.ok) (hs : Reachable cfg s) : Inv cfg s := by
  obtain ⟨l, hl, rfl⟩ := hs
  exact Inv_applyOps cfg _ l hok (Inv_mkEmpty cfg) hl

/-! ### Word-level effect of the bit operations -/

/-- A fetch-OR never clears a bit that was set. -/
theorem test_or_mono (e : BitSetElement) (pi po i o : Nat)
    (h : e.test i o = true) : (e.set pi po).test i o = true := by
  unfold BitSetElement.test BitSetElement.set at *
  simp only [] at *
  rw [bitTestD] at h ⊢
  by_cases hpi : pi = i
  · subst hpi
    rcases Nat.lt_or_ge pi e.words.length with hl | hl
    · rw [getD_set_self _ _ _ _ hl, testBit_or_one_shiftLeft, h]
      simp
    · rw [List.set_eq_of_length_le hl]
      exact h
  · rw [getD_set_ne _ _ _ _ _ hpi]
    exact h

/-- A fetch-OR sets its own bit. -/
theorem test_or_self (e : BitSetElement) (i o : Nat) (hi : i < e.words.length) :
    (e.set i o).test i o = true := by
  unfold BitSetElement.test BitSetElement.set
  simp only []
  rw [bitTestD, getD_set_self _ _ _ _ hi, testBit_or_one_shiftLeft]
  simp

/-- A fetch-OR changes no other bit of the bucket. -/
theorem test_or_other (e : BitSetElement) (pi po i o : Nat) (hne : pi ≠ i ∨ po ≠ o) :
    (e.set pi po).test i o = e.test i o := by
  unfold BitSetElement.test BitSetElement.set
  simp only []
  rw [bitTestD, bitTestD]
  by_cases hpi : pi = i
  · subst hpi
    have hpo : po ≠ o := by tauto
    rcases Nat.lt_or_ge pi e.words.length with hl | hl
    · rw [getD_set_self _ _ _ _ hl, testBit_or_one_shiftLeft]
      simp [hpo]
    · rw [List.set_eq_of_length_le hl]
  · rw [getD_set_ne _ _ _ _ _ hpi]

/-- A fetch-AND-NOT clears its own bit. -/
theorem test_reset_self (cfg : Config) (e : BitSetElement) (i o : Nat)
    (ho : o < cfg.wordBits) : (e.reset cfg i o).test i o = false := by
  unfold BitSetElement.test BitSetElement.reset
  simp only []
  rw [bitTestD]
  rcases Nat.lt_or_ge i e.words.length with hl | hl
  · rw [getD_set_self _ _ _ _ hl, Nat.testBit_land, mask_testBit]
    simp [ho]
  · rw [List.set_eq_of_length_le hl]
    simp only [List.getD]
    rw [List.get?_eq_none.mpr (by omega)]
    simp [Nat.zero_testBit]

/-- A fetch-AND-NOT changes no other bit of the bucket (for in-range offsets). -/
theorem test_reset_other (cfg : Config) (e : BitSetElement) (pi po i o : Nat)
    (ho : o < cfg.wordBits) (hne : pi ≠ i ∨ po ≠ o) :
    (e.reset cfg pi po).test i o = e.test i o := by
  unfold BitSetElement.test BitSetElement.reset
  simp only []
  rw [bitTestD, bitTestD]
  by_cases hpi : pi = i
  · subst hpi
    have hpo : po ≠ o := by tauto
    rcases Nat.lt_or_ge pi e.words.length with hl | hl
    · rw [getD_set_self _ _ _ _ hl, Nat.testBit_land, mask_testBit]
      have : (po = o) = False := by simp [hpo]
      simp [ho, this]
    · rw [List.set_eq_of_length_le hl]
  · rw [getD_set_ne _ _ _ _ _ hpi]

theorem init_cardinality (cfg : Config) (c i o : Nat) :
    (BitSetElement.init cfg c i o).cardinality = c := by
  unfold BitSetElement.init
  split <;> rfl

/-- The freshly constructed bucket has its own bit set. -/
theorem test_init_self (cfg : Config) (c i o : Nat)
    (ho : o < cfg.wordBits) (hi : i < cfg.wordCount) :
    (BitSetElement.init cfg c i o).test i o = true := by
  rw [init_eq cfg c i o ho]
  unfold BitSetElement.test
  simp only []
  rw [bitTestD, getD_set_self _ _ _ _ (by simpa using hi), Nat.one_shiftLeft,
    Nat.testBit_two_pow]
  simp

/-- The freshly constructed bucket has every other bit clear. -/
theorem test_init_other (cfg : Config) (c i o i' o' : Nat)
    (ho : o < cfg.wordBits) (hne : i ≠ i' ∨ o ≠ o') :
    (BitSetElement.init cfg c i o).test i' o' = false := by
  rw [init_eq cfg c i o ho]
  unfold BitSetElement.test
  simp only []
  rw [bitTestD]
  by_cases hii : i = i'
  · subst hii
    have ho' : o ≠ o' := by tauto
    rcases Nat.lt_or_ge i (List.replicate cfg.wordCount (0 : Nat)).length with hl | hl
    · rw [getD_set_self _ _ _ _ hl, Nat.one_shiftLeft, Nat.testBit_two_pow]
      simp [ho']
    · rw [List.set_eq_of_length_le hl, getD_replicate]
      simp [Nat.zero_testBit]
  · rw [getD_set_ne _ _ _ _ _ hii, getD_replicate]
    simp [Nat.zero_testBit]

/-! ### The bit of `pos` is installed and observable -/

/-- The target bucket of `pos` is installed with a matching identity tag and
the bit of `pos` set. -/
def BitHolds (cfg : Config) (s : atomic_bitset) (pos : Nat) : Prop :=
  ∃ e, s.elements.getD (relocate cfg pos).1 none = some e ∧
    e.cardinality = (relocate cfg pos).1 ∧
    e.test (relocate cfg pos).2.1 (relocate cfg pos).2.2 = true

theorem bitHolds_after_set (cfg : Config) (s : atomic_bitset) (pos : Nat)
    (hok : cfg.ok) (hInv : Inv cfg s) (hpos : validPos cfg pos) :
    BitHolds cfg (atomic_bitset.set cfg s pos).2 pos := by
  have hb : (relocate cfg pos).1 < cfg.capacity := relocate_bucket_lt cfg pos hpos
  have ho : (relocate cfg pos).2.2 < cfg.wordBits := relocate_offset_lt cfg pos
  have hi : (relocate cfg pos).2.1 < cfg.wordCount := relocate_index_lt cfg pos hok.1
  have hblen : (relocate cfg pos).1 < s.elements.length := by rw [hInv.1]; exact hb
  cases h : s.elements.getD (relocate cfg pos).1 none with
  | none =>
    rw [set_eq_empty cfg s pos hok.2 h]
    exact ⟨_, getD_set_self _ _ _ _ hblen, init_cardinality cfg _ _ _,
      test_init_self cfg _ _ _ ho hi⟩
  | some e =>
    have hse := hInv.2 _ hb
    rw [h] at hse
    obtain ⟨hc, hlen, hbound⟩ := hse
    rw [set_eq_mem cfg s pos e hok.2 h hc]
    exact ⟨_, getD_set_self _ _ _ _ hblen, hc,
      test_or_self e _ _ (by rw [hlen]; exact hi)⟩

theorem test_of_bitHolds (cfg : Config) (s : atomic_bitset) (pos : Nat)
    (hM : 0 < cfg.maxTries) (hB : BitHolds cfg s pos) :
    atomic_bitset.test cfg s pos = .yes := by
  obtain ⟨e, he, hc, ht⟩ := hB
  rw [test_eq_mem cfg s pos e hM he hc, ht]
  rfl

/-- Any valid call other than `reset(pos)` and bulk `reset()` keeps the bit of
`pos` installed and observable. -/
theorem bitHolds_applyOp (cfg : Config) (s : atomic_bitset) (pos : Nat) (op : Op)
    (hok : cfg.ok) (hInv : Inv cfg s) (hpos : validPos cfg pos)
    (hopv : op.valid cfg) (hop1 : op ≠ Op.reset pos) (hop2 : op ≠ Op.resetAll)
    (hB : BitHolds cfg s pos) : BitHolds cfg (applyOp cfg s op) pos := by
  obtain ⟨e, he, hc, ht⟩ := hB
  have hblen : (relocate cfg pos).1 < s.elements.length :=
    lt_length_of_getD_eq_some _ _ _ he
  cases op with
  | test p => exact ⟨e, he, hc, ht⟩
  | resetAll => exact absurd rfl hop2
  | set p =>
    have hpv : validPos cfg p := hopv
    by_cases hbb : (relocate cfg p).1 = (relocate cfg pos).1
    · have he' : s.elements.getD (relocate cfg p).1 none = some e := by
        rw [hbb]; exact he
      have hblen' : (relocate cfg p).1 < s.elements.length := by
        rw [hbb]; exact hblen
      simp only [applyOp]
      rw [set_eq_mem cfg s p e hok.2 he' (by rw [hc, hbb])]
      refine ⟨e.set (relocate cfg p).2.1 (relocate cfg p).2.2, ?_, hc, ?_⟩
      · rw [← hbb]
        exact getD_set_self _ _ _ _ hblen'
      · exact test_or_mono e _ _ _ _ ht
    · simp only [applyOp]
      cases h2 : s.elements.getD (relocate cfg p).1 none with
      | none =>
        rw [set_eq_empty cfg s p hok.2 h2]
        exact ⟨e, by rw [getD_set_ne _ _ _ _ _ hbb]; exact he, hc, ht⟩
      | some e2 =>
        have hse2 := hInv.2 _ (relocate_bucket_lt cfg p hpv)
        rw [h2] at hse2
        rw [set_eq_mem cfg s p e2 hok.2 h2 hse2.1]
        exact ⟨e, by rw [getD_set_ne _ _ _ _ _ hbb]; exact he, hc, ht⟩
  | reset p =>
    have hpv : validPos cfg p := hopv
    have hppos : p ≠ pos := fun hpp => hop1 (by rw [hpp])
    by_cases hbb : (relocate cfg p).1 = (relocate cfg pos).1
    · have he' : s.elements.getD (relocate cfg p).1 none = some e := by
        rw [hbb]; exact he
      have hblen' : (relocate cfg p).1 < s.elements.length := by
        rw [hbb]; exact hblen
      simp only [applyOp]
      rw [reset_eq_mem cfg s p e hok.2 he' (by rw [hc, hbb])]
      have hne : (relocate cfg p).2.1 ≠ (relocate cfg pos).2.1
          ∨ (relocate cfg p).2.2 ≠ (relocate cfg pos).2.2 := by
        by_contra hcon
        push_neg at hcon
        exact hppos (relocate_inj cfg p pos
          (Prod.ext hbb (Prod.ext hcon.1 hcon.2)))
      refine ⟨e.reset cfg (relocate cfg p).2.1 (relocate cfg p).2.2, ?_, hc, ?_⟩
      · rw [← hbb]
        exact getD_set_self _ _ _ _ hblen'
      · rw [test_reset_other cfg e _ _ _ _ (relocate_offset_lt cfg pos) hne]
        exact ht
    · simp only [applyOp]
      cases h2 : s.elements.getD (relocate cfg p).1 none with
      | none =>
        rw [reset_eq_empty cfg s p hok.2 h2]
        exact ⟨e, he, hc, ht⟩
      | some e2 =>
        have hse2 := hInv.2 _ (relocate_bucket_lt cfg p hpv)
        rw [h2] at hse2
        rw [reset_eq_mem cfg s p e2 hok.2 h2 hse2.1]
        exact ⟨e, by rw [getD_set_ne _ _ _ _ _ hbb]; exact he, hc, ht⟩

theorem bitHolds_applyOps (cfg : Config) (s : atomic_bitset) (pos : Nat) (l : List Op)
    (hok : cfg.ok) (hInv : Inv cfg s) (hpos : validPos cfg pos)
    (hl : ∀ op ∈ l, op.valid cfg ∧ op ≠ Op.reset pos ∧ op ≠ Op.resetAll)
    (hB : BitHolds cfg s pos) : BitHolds cfg (applyOps cfg s l) pos := by
  induction l generalizing s with
  | nil => exact hB
  | cons op l ih =>
    have hop := hl op (by simp)
    exact ih (applyOp cfg s op)
      (Inv_applyOp cfg s op hok hInv hop.1)
      (fun op' h' => hl op' (by simp [h']))
      (bitHolds_applyOp cfg s pos op hok hInv hpos hop.1 hop.2.1 hop.2.2 hB)

/-- Two states with the same content in the target slot answer `test` alike
(stated for an invariant-satisfying reference state). -/
theorem test_congr (cfg : Config) (s t : atomic_bitset) (pos' : Nat)
    (hok : cfg.ok) (hInv : Inv cfg s) (hpos' : validPos cfg pos')
    (hEq : t.elements.getD (relocate cfg pos').1 none
      = s.elements.getD (relocate cfg pos').1 none) :
    atomic_bitset.test cfg t pos' = atomic_bitset.test cfg s pos' := by
  have hb' := relocate_bucket_lt cfg pos' hpos'
  cases h : s.elements.getD (relocate cfg pos').1 none with
  | none =>
    rw [test_eq_empty cfg t pos' hok.2 (by rw [hEq]; exact h),
      test_eq_empty cfg s pos' hok.2 h]
  | some e =>
    have hse := hInv.2 _ hb'
    rw [h] at hse
    rw [test_eq_mem cfg t pos' e hok.2 (by rw [hEq]; exact h) hse.1,
      test_eq_mem cfg s pos' e hok.2 h hse.1]

/-- C1: For every valid position `pos` (`pos < Capacity * 2 ^ BitsetWidth`), if
`set(pos)` returns `success` and the subsequent calls contain no `reset(pos)`
and no bulk `reset()`, then `test(pos)` returns `yes`. -/
theorem set_then_test_yes (cfg : Config) (s : atomic_bitset) (pos : Nat) (l : List Op)
    (hok : cfg.ok) (hInv : Inv cfg s) (hpos : validPos cfg pos)
    (hsucc : (atomic_bitset.set cfg s pos).1 = .success)
    (hl : ∀ op ∈ l, op.valid cfg ∧ op ≠ Op.reset pos ∧ op ≠ Op.resetAll) :
    atomic_bitset.test cfg (applyOps cfg (atomic_bitset.set cfg s pos).2 l) pos
      = .yes :=
  test_of_bitHolds cfg _ pos hok.2
    (bitHolds_applyOps cfg _ pos l hok (Inv_set cfg s pos hok hInv hpos) hpos hl
      (bitHolds_after_set cfg s pos hok hInv hpos))

/-- C2: For every valid position `pos`, immediately after `reset(pos)` the call
`test(pos)` returns `no` — both when the bucket of `pos` was never allocated
and when it is installed (in particular with the bit previously set). -/
theorem reset_then_test_no (cfg : Config) (s : atomic_bitset) (pos : Nat)
    (hok : cfg.ok) (hInv : Inv cfg s) (hpos : validPos cfg pos) :
    atomic_bitset.test cfg (atomic_bitset.reset cfg s pos).2 pos = .no := by
  have hb := relocate_bucket_lt cfg pos hpos
  have hblen : (relocate cfg pos).1 < s.elements.length := by
    rw [hInv.1]; exact hb
  cases h : s.elements.getD (relocate cfg pos).1 none with
  | none =>
    rw [reset_eq_empty cfg s pos hok.2 h]
    exact test_eq_empty cfg s pos hok.2 h
  | some e =>
    have hse := hInv.2 _ hb
    rw [h] at hse
    rw [reset_eq_mem cfg s pos e hok.2 h hse.1]
    rw [test_eq_mem cfg _ pos (e.reset cfg (relocate cfg pos).2.1 (relocate cfg pos).2.2)
      hok.2 (getD_set_self _ _ _ _ hblen) hse.1]
    rw [test_reset_self cfg e _ _ (relocate_offset_lt cfg pos)]
    rfl

/-- C3: bulk `reset()` always returns `success`, and afterwards `test(pos)`
returns `no` for every valid position `pos`, previously set or untouched. -/
theorem bulk_reset_clears (cfg : Config) (s : atomic_bitset) (pos : Nat)
    (hok : cfg.ok) (hInv : Inv cfg s) (hpos : validPos cfg pos) :
    (atomic_bitset.resetAll s).1 = .success ∧
    atomic_bitset.test cfg (atomic_bitset.resetAll s).2 pos = .no := by
  refine ⟨rfl, ?_⟩
  have hb := relocate_bucket_lt cfg pos hpos
  have hmap := getD_map_option
    (fun e : BitSetElement => (⟨e.cardinality, e.words.map fun _ => 0⟩ : BitSetElement))
    s.elements (relocate cfg pos).1
  cases h : s.elements.getD (relocate cfg pos).1 none with
  | none =>
    refine test_eq_empty cfg _ pos hok.2 ?_
    show (s.elements.map _).getD _ none = none
    rw [hmap, h]
    rfl
  | some e =>
    have hse := hInv.2 _ hb
    rw [h] at hse
    have hget : (atomic_bitset.resetAll s).2.elements.getD (relocate cfg pos).1 none
        = some ⟨e.cardinality, e.words.map fun _ => 0⟩ := by
      show (s.elements.map _).getD _ none = _
      rw [hmap, h]
      rfl
    rw [test_eq_mem cfg _ pos _ hok.2 hget hse.1]
    have hzero : (⟨e.cardinality, e.words.map fun _ => 0⟩ : BitSetElement).test
        (relocate cfg pos).2.1 (relocate cfg pos).2.2 = false := by
      unfold BitSetElement.test
      simp only []
      rw [getD_map_zero]
      simp
    rw [hzero]
    rfl

/-- C4: in every state reachable by valid calls, every non-empty slot holds a
bucket whose identity tag (the `cardinality` field) equals the slot's index. -/
theorem reachable_identity_tag (cfg : Config) (s : atomic_bitset)
    (hok : cfg.ok) (hs : Reachable cfg s) (b : Nat) (e : BitSetElement)
    (hb : b < cfg.capacity) (he : s.elements.getD b none = some e) :
    e.cardinality = b := by
  have hInv := Inv_of_Reachable cfg s hok hs
  have hse := hInv.2 b hb
  rw [he] at hse
  exact hse.1

/-- C5: under the precondition `bucket < Capacity`, the identity-tag-mismatch
branch is unreachable in sequential execution: `set` never returns `failed`,
and `reset(pos)` and `test(pos)` never return `not_found`. -/
theorem valid_ops_never_fail (cfg : Config) (s : atomic_bitset) (pos : Nat)
    (hok : cfg.ok) (hInv : Inv cfg s) (hpos : validPos cfg pos) :
    (atomic_bitset.set cfg s pos).1 = .success ∧
    (atomic_bitset.reset cfg s pos).1 = .success ∧
    atomic_bitset.test cfg s pos ≠ .not_found := by
  have hb := relocate_bucket_lt cfg pos hpos
  cases h : s.elements.getD (relocate cfg pos).1 none with
  | none =>
    refine ⟨?_, ?_, ?_⟩
    · rw [set_eq_empty cfg s pos hok.2 h]
    · rw [reset_eq_empty cfg s pos hok.2 h]
    · rw [test_eq_empty cfg s pos hok.2 h]
      decide
  | some e =>
    have hse := hInv.2 _ hb
    rw [h] at hse
    refine ⟨?_, ?_, ?_⟩
    · rw [set_eq_mem cfg s pos e hok.2 h hse.1]
    · rw [reset_eq_mem cfg s pos e hok.2 h hse.1]
    · rw [test_eq_mem cfg s pos e hok.2 h hse.1]
      split <;> decide

/-- C6: for every bucket id `b`, the retry recomputation
`relocate(b << BitsetWidth)` yields the same bucket id `b` with word index `0`
and bit offset `0` — after a mismatch retry the operation targets bit
position `b * 2 ^ BitsetWidth`, not the originally requested position. -/
theorem relocate_retry_fixed_point (cfg : Config) (b : Nat) :
    relocate cfg (b <<< cfg.bitsetWidth) = (b, 0, 0) := by
  have hpow : 0 < 2 ^ cfg.bitsetWidth := Nat.pos_pow_of_pos _ (by norm_num)
  unfold relocate
  rw [Nat.shiftLeft_eq, Nat.shiftRight_eq_div_pow, Nat.and_pow_two_sub_one_eq_mod,
    Nat.mul_div_cancel _ hpow, Nat.mul_mod_left]
  simp [Nat.zero_and]

/-- The `set` loop never empties a slot and never changes an installed
bucket's identity tag, whatever the state and arguments. -/
theorem setLoop_mono (cfg : Config) (s : atomic_bitset) (c : Nat)
    (fuel b i o b' : Nat) (e : BitSetElement)
    (h : s.elements.getD b' none = some e) :
    ∃ e', (setLoop cfg s c fuel b i o).2.elements.getD b' none = some e' ∧
      e'.cardinality = e.cardinality := by
  induction fuel generalizing b i o with
  | zero => exact ⟨e, h, rfl⟩
  | succ fuel ih =>
    cases hslot : s.elements.getD b none with
    | none =>
      simp only [setLoop, hslot]
      by_cases hbb : b = b'
      · subst hbb
        rw [h] at hslot
        cases hslot
      · exact ⟨e, by rw [getD_set_ne _ _ _ _ _ hbb]; exact h, rfl⟩
    | some elt =>
      simp only [setLoop, hslot]
      by_cases hcc : elt.cardinality = c
      · rw [if_pos hcc]
        by_cases hbb : b = b'
        · subst hbb
          rw [hslot] at h
          injection h with h
          subst h
          exact ⟨elt.set i o,
            getD_set_self _ _ _ _ (lt_length_of_getD_eq_some _ _ _ hslot), rfl⟩
        · exact ⟨e, by rw [getD_set_ne _ _ _ _ _ hbb]; exact h, rfl⟩
      · rw [if_neg hcc]
        exact ih _ _ _

/-- The `reset(pos)` loop never empties a slot and never changes an installed
bucket's identity tag. -/
theorem resetLoop_mono (cfg : Config) (s : atomic_bitset) (c : Nat)
    (fuel b i o b' : Nat) (e : BitSetElement)
    (h : s.elements.getD b' none = some e) :
    ∃ e', (resetLoop cfg s c fuel b i o).2.elements.getD b' none = some e' ∧
      e'.cardinality = e.cardinality := by
  induction fuel generalizing b i o with
  | zero => exact ⟨e, h, rfl⟩
  | succ fuel ih =>
    cases hslot : s.elements.getD b none with
    | none =>
      simp only [resetLoop, hslot]
      exact ⟨e, h, rfl⟩
    | some elt =>
      simp only [resetLoop, hslot]
      by_cases hcc : elt.cardinality = c
      · rw [if_pos hcc]
        by_cases hbb : b = b'
        · subst hbb
          rw [hslot] at h
          injection h with h
          subst h
          exact ⟨elt.reset cfg i o,
            getD_set_self _ _ _ _ (lt_length_of_getD_eq_some _ _ _ hslot), rfl⟩
        · exact ⟨e, by rw [getD_set_ne _ _ _ _ _ hbb]; exact h, rfl⟩
      · rw [if_neg hcc]
        exact ih _ _ _

/-- C7: no operation (`set`, `reset(pos)`, `test`, bulk `reset()`) ever returns
a non-empty slot to empty or replaces the installed bucket by one for another
bucket id: after any call, the slot still holds a bucket with the same
identity tag (word mutations act in place on the installed object). -/
theorem slot_monotone (cfg : Config) (s : atomic_bitset) (op : Op)
    (b : Nat) (e : BitSetElement) (h : s.elements.getD b none = some e) :
    ∃ e', (applyOp cfg s op).elements.getD b none = some e' ∧
      e'.cardinality = e.cardinality := by
  cases op with
  | set pos =>
    simp only [applyOp, atomic_bitset.set]
    exact setLoop_mono cfg s _ _ _ _ _ _ e h
  | reset pos =>
    simp only [applyOp, atomic_bitset.reset]
    exact resetLoop_mono cfg s _ _ _ _ _ _ e h
  | resetAll =>
    refine ⟨⟨e.cardinality, e.words.map fun _ => 0⟩, ?_, rfl⟩
    simp only [applyOp, atomic_bitset.resetAll]
    rw [getD_map_option, h]
    rfl
  | test pos => exact ⟨e, h, rfl⟩

/-- C8: `set(pos)` changes the value of no bit other than `pos`: `test` on any
other valid position is unchanged (bucket and word isolation). -/
theorem set_frame (cfg : Config) (s : atomic_bitset) (pos pos' : Nat)
    (hok : cfg.ok) (hInv : Inv cfg s) (hpos : validPos cfg pos)
    (hpos' : validPos cfg pos') (hne : pos' ≠ pos) :
    atomic_bitset.test cfg (atomic_bitset.set cfg s pos).2 pos'
      = atomic_bitset.test cfg s pos' := by
  have hb := relocate_bucket_lt cfg pos hpos
  have hblen : (relocate cfg pos).1 < s.elements.length := by
    rw [hInv.1]; exact hb
  by_cases hbb : (relocate cfg pos').1 = (relocate cfg pos).1
  · have hneio : (relocate cfg pos).2.1 ≠ (relocate cfg pos').2.1
        ∨ (relocate cfg pos).2.2 ≠ (relocate cfg pos').2.2 := by
      by_contra hcon
      push_neg at hcon
      exact hne (relocate_inj cfg pos' pos
        (Prod.ext hbb (Prod.ext hcon.1.symm hcon.2.symm)))
    cases h : s.elements.getD (relocate cfg pos).1 none with
    | none =>
      rw [set_eq_empty cfg s pos hok.2 h]
      rw [test_eq_mem cfg _ pos'
        (BitSetElement.init cfg (relocate cfg pos).1
          (relocate cfg pos).2.1 (relocate cfg pos).2.2)
        hok.2 (by rw [hbb]; exact getD_set_self _ _ _ _ hblen)
        (by rw [init_cardinality, hbb])]
      rw [test_eq_empty cfg s pos' hok.2 (by rw [hbb]; exact h)]
      rw [test_init_other cfg _ _ _ _ _ (relocate_offset_lt cfg pos) hneio]
      rfl
    | some e =>
      have hse := hInv.2 _ hb
      rw [h] at hse
      rw [set_eq_mem cfg s pos e hok.2 h hse.1]
      rw [test_eq_mem cfg _ pos'
        (e.set (relocate cfg pos).2.1 (relocate cfg pos).2.2)
        hok.2 (by rw [hbb]; exact getD_set_self _ _ _ _ hblen)
        (by show e.cardinality = _; rw [hse.1, hbb])]
      rw [test_eq_mem cfg s pos' e hok.2 (by rw [hbb]; exact h)
        (by rw [hse.1, hbb])]
      rw [test_or_other e _ _ _ _ hneio]
  · cases h : s.elements.getD (relocate cfg pos).1 none with
    | none =>
      rw [set_eq_empty cfg s pos hok.2 h]
      exact test_congr cfg s _ pos' hok hInv hpos'
        (getD_set_ne _ _ _ _ _ (fun hc => hbb hc.symm))
    | some e =>
      have hse := hInv.2 _ hb
      rw [h] at hse
      rw [set_eq_mem cfg s pos e hok.2 h hse.1]
      exact test_congr cfg s _ pos' hok hInv hpos'
        (getD_set_ne _ _ _ _ _ (fun hc => hbb hc.symm))

/-- C9: for every valid position whose bucket slot is empty, `reset(pos)`
returns `success` (not `not_found`) and leaves the whole structure unchanged:
no allocation is performed. -/
theorem reset_unallocated_noop (cfg : Config) (s : atomic_bitset) (pos : Nat)
    (hM : 0 < cfg.maxTries) (hpos : validPos cfg pos)
    (h : s.elements.getD (relocate cfg pos).1 none = none) :
    atomic_bitset.reset cfg s pos = (.success, s) :=
  reset_eq_empty cfg s pos hM h

/-! ### Interleaving model of concurrent `set` calls on one word

`N` threads each run `atomic_bitset::set` on distinct bit positions that fall
in the same bucket and the same machine word (so all threads share one slot
and one word).  Because every thread addresses the same bucket, every
installed bucket carries the matching identity tag and the mismatch branch
never triggers; the remaining shared-memory accesses of one call are three
atomic instructions, which the machine below interleaves arbitrarily:

* the relaxed load of the slot (line 43): `start → casReady` when the slot
  was empty (the thread then builds its candidate bucket, whose constructor
  pre-sets the thread's bit, lines 46 and 152), `start → willOr` when a
  bucket is already installed (line 64 then routes to `elt->set`, line 65);
* the `compare_exchange` install (line 50): from `casReady`, it installs the
  candidate (word `1 <<< offset`) if the slot is still empty and the thread
  is `done`; if another thread installed first the CAS fails and the thread
  falls through to the fetch-OR of line 55 (`casReady → willOr`);
* the fetch-OR of the thread's bit into the installed word (lines 55, 158):
  `willOr → done`.

The shared state is the slot: `none`, or `some w` with `w` the value of the
one relevant machine word of the installed bucket. -/

inductive ThreadPC where
  | start
  | casReady
  | willOr
  | done
deriving DecidableEq, Repr

/-- Shared slot plus one program counter per thread. -/
structure CState where
  slot : Option Nat
  pcs : List ThreadPC
deriving DecidableEq, Repr

/-- One atomic step of thread `i`; `offs.getD i 0` is the thread's bit offset
inside the shared word.  A scheduled thread that is `done` (or out of range)
stutters; the `willOr`-with-empty-slot combination cannot occur in reachable
states and also stutters. -/
def cStep (offs : List Nat) (s : CState) (i : Nat) : CState :=
  match s.pcs.getD i ThreadPC.done, s.slot with
  | .start, none => ⟨none, s.pcs.set i .casReady⟩
  | .start, some w => ⟨some w, s.pcs.set i .willOr⟩
  | .casReady, none => ⟨some (1 <<< offs.getD i 0), s.pcs.set i .done⟩
  | .casReady, some w => ⟨some w, s.pcs.set i .willOr⟩
  | .willOr, some w => ⟨some (w ||| 1 <<< offs.getD i 0), s.pcs.set i .done⟩
  | .willOr, none => s
  | .done, _ => s

/-- Run a schedule (an arbitrary interleaving) from the initial state: empty
slot, every thread before its first instruction. -/
def cRun (offs : List Nat) (sched : List Nat) : CState :=
  sched.foldl (cStep offs) ⟨none, List.replicate offs.length ThreadPC.start⟩

/-- Machine invariant: while the slot is empty no thread has passed its CAS,
and once a word is installed its set bits are exactly the offsets of the
threads that have completed. -/
def CInv (offs : List Nat) (s : CState) : Prop :=
  s.pcs.length = offs.length ∧
  (s.slot = none → ∀ pc ∈ s.pcs, pc = ThreadPC.start ∨ pc = ThreadPC.casReady) ∧
  ∀ w, s.slot = some w → ∀ j : Nat,
    (w.testBit j = true ↔ ∃ i, i < offs.length ∧
      s.pcs.getD i ThreadPC.done = ThreadPC.done ∧ offs.getD i 0 = j)

theorem getD_lt_length {α : Type} (l : List α) (i : Nat) (d : α)
    (h : l.getD i d ≠ d) : i < l.length := by
  by_contra hge
  rw [List.getD, List.get?_eq_none.mpr (by omega)] at h
  exact h rfl

/-- Setting a thread's program counter to a not-`done` value preserves the
invariant (used for the load and the failed-CAS transitions). -/
theorem CInv_set_pc (offs : List Nat) (s : CState) (i : Nat) (v : ThreadPC)
    (hInv : CInv offs s)
    (hold : s.pcs.getD i ThreadPC.done ≠ ThreadPC.done)
    (hv : v ≠ ThreadPC.done)
    (hcl : s.slot = none → v = ThreadPC.start ∨ v = ThreadPC.casReady) :
    CInv offs ⟨s.slot, s.pcs.set i v⟩ := by
  obtain ⟨hlen, hnone, hsome⟩ := hInv
  refine ⟨by simpa using hlen, ?_, ?_⟩
  · intro hs pc hpc
    rcases List.mem_or_eq_of_mem_set hpc with h | h
    · exact hnone hs pc h
    · rw [h]
      exact hcl hs
  · intro w hw j
    rw [hsome w hw j]
    constructor
    · rintro ⟨i', hi', hdone, hoff⟩
      refine ⟨i', hi', ?_, hoff⟩
      by_cases hii : i' = i
      · subst hii
        exact absurd hdone hold
      · rw [getD_set_ne _ _ _ _ _ (fun hc => hii hc.symm)]
        exact hdone
    · rintro ⟨i', hi', hdone, hoff⟩
      refine ⟨i', hi', ?_, hoff⟩
      by_cases hii : i' = i
      · subst hii
        rcases Nat.lt_or_ge i' s.pcs.length with hl | hl
        · rw [getD_set_self _ _ _ _ hl] at hdone
          exact absurd hdone hv
        · rw [List.set_eq_of_length_le hl] at hdone
          exact absurd hdone hold
      · rw [getD_set_ne _ _ _ _ _ (fun hc => hii hc.symm)] at hdone
        exact hdone

theorem cStep_inv (offs : List Nat) (s : CState) (i : Nat)
    (hInv : CInv offs s) : CInv offs (cStep offs s i) := by
  obtain ⟨hlen, hnone, hsome⟩ := hInv
  cases hpc : s.pcs.getD i ThreadPC.done with
  | start =>
    cases hslot : s.slot with
    | none =>
      have heq : cStep offs s i = ⟨none, s.pcs.set i .casReady⟩ := by
        unfold cStep
        rw [hpc, hslot]
      rw [heq, ← hslot]
      exact CInv_set_pc offs s i _ ⟨hlen, hnone, hsome⟩
        (by rw [hpc]; decide) (by decide) (fun _ => Or.inr rfl)
    | some w =>
      have heq : cStep offs s i = ⟨some w, s.pcs.set i .willOr⟩ := by
        unfold cStep
        rw [hpc, hslot]
      rw [heq, ← hslot]
      refine CInv_set_pc offs s i _ ⟨hlen, hnone, hsome⟩
        (by rw [hpc]; decide) (by decide) (fun hs => ?_)
      rw [hslot] at hs
      cases hs
  | casReady =>
    cases hslot : s.slot with
    | none =>
      have heq : cStep offs s i = ⟨some (1 <<< offs.getD i 0), s.pcs.set i .done⟩ := by
        unfold cStep
        rw [hpc, hslot]
      rw [heq]
      have hilen : i < s.pcs.length := getD_lt_length _ _ _ (by rw [hpc]; decide)
      refine ⟨by simpa using hlen, ?_, ?_⟩
      · intro hs
        cases hs
      · intro w' hw' j
        injection hw' with hw'
        subst hw'
        rw [Nat.one_shiftLeft, Nat.testBit_two_pow]
        constructor
        · intro hj
          exact ⟨i, by rw [← hlen]; exact hilen,
            getD_set_self _ _ _ _ hilen, of_decide_eq_true hj⟩
        · rintro ⟨i', hi', hdone, hoff⟩
          by_cases hii : i' = i
          · subst hii
            exact decide_eq_true hoff
          · rw [getD_set_ne _ _ _ _ _ (fun hc => hii hc.symm)] at hdone
            have hi'len : i' < s.pcs.length := by rw [hlen]; exact hi'
            have hmem : s.pcs.getD i' ThreadPC.done ∈ s.pcs := by
              rw [List.getD_eq_getElem _ _ hi'len]
              exact List.getElem_mem hi'len
            rcases hnone hslot _ hmem with hcontra | hcontra <;>
              rw [hdone] at hcontra <;> cases hcontra
    | some w =>
      have heq : cStep offs s i = ⟨some w, s.pcs.set i .willOr⟩ := by
        unfold cStep
        rw [hpc, hslot]
      rw [heq, ← hslot]
      refine CInv_set_pc offs s i _ ⟨hlen, hnone, hsome⟩
        (by rw [hpc]; decide) (by decide) (fun hs => ?_)
      rw [hslot] at hs
      cases hs
  | willOr =>
    cases hslot : s.slot with
    | none =>
      have heq : cStep offs s i = s := by
        unfold cStep
        rw [hpc, hslot]
      rw [heq]
      exact ⟨hlen, hnone, hsome⟩
    | some w =>
      have heq : cStep offs s i
          = ⟨some (w ||| 1 <<< offs.getD i 0), s.pcs.set i .done⟩ := by
        unfold cStep
        rw [hpc, hslot]
      rw [heq]
      have hilen : i < s.pcs.length := getD_lt_length _ _ _ (by rw [hpc]; decide)
      refine ⟨by simpa using hlen, ?_, ?_⟩
      · intro hs
        cases hs
      · intro w' hw' j
        injection hw' with hw'
        subst hw'
        rw [testBit_or_one_shiftLeft]
        constructor
        · intro hj
          rw [Bool.or_eq_true] at hj
          rcases hj with hj | hj
          · obtain ⟨i', hi', hdone, hoff⟩ := (hsome w hslot j).mp hj
            have hii : i' ≠ i := by
              intro hc
              subst hc
              rw [hpc] at hdone
              cases hdone
            exact ⟨i', hi',
              by rw [getD_set_ne _ _ _ _ _ (fun hc => hii hc.symm)]; exact hdone, hoff⟩
          · exact ⟨i, by rw [← hlen]; exact hilen,
              getD_set_self _ _ _ _ hilen, of_decide_eq_true hj⟩
        · rintro ⟨i', hi', hdone, hoff⟩
          by_cases hii : i' = i
          · subst hii
            rw [hoff]
            simp
          · rw [getD_set_ne _ _ _ _ _ (fun hc => hii hc.symm)] at hdone
            have hwj : w.testBit j = true := (hsome w hslot j).mpr ⟨i', hi', hdone, hoff⟩
            rw [hwj]
            simp
  | done =>
    cases hslot : s.slot with
    | none =>
      have heq : cStep offs s i = s := by
        unfold cStep
        rw [hpc, hslot]
      rw [heq]
      exact ⟨hlen, hnone, hsome⟩
    | some w =>
      have heq : cStep offs s i = s := by
        unfold cStep
        rw [hpc, hslot]
      rw [heq]
      exact ⟨hlen, hnone, hsome⟩

theorem cRun_inv (offs sched : List Nat) : CInv offs (cRun offs sched) := by
  have hinit : CInv offs ⟨none, List.replicate offs.length ThreadPC.start⟩ := by
    refine ⟨by simp, fun _ pc hpc => Or.inl (List.eq_of_mem_replicate hpc), ?_⟩
    intro w hw
    cases hw
  unfold cRun
  generalize hstart : (⟨none, List.replicate offs.length ThreadPC.start⟩ : CState) = s0
  rw [hstart] at hinit
  clear hstart
  induction sched generalizing s0 with
  | nil => exact hinit
  | cons i sched ih => exact ih _ (cStep_inv offs s0 i hinit)

/-- C10: no lost update under concurrency.  If `N ≥ 1` threads each call `set`
on distinct valid bit positions falling in the same machine word (offsets
`offs`, all below the word width `wb`), then after every interleaving in
which all calls have returned, the shared word has exactly the `N` chosen
bits set: `test`'s bit probe answers `yes` for each of the `N` offsets and
`no` for every other bit of the word. -/
theorem concurrent_set_no_lost_update (wb : Nat) (offs sched : List Nat)
    (hN : 0 < offs.length)
    (hlt : ∀ o ∈ offs, o < wb)
    (hnodup : offs.Nodup)
    (hdone : ∀ pc ∈ (cRun offs sched).pcs, pc = ThreadPC.done) :
    ∃ w, (cRun offs sched).slot = some w ∧
      ∀ j, j < wb →
        (((w &&& 1 <<< j) != 0) = true ↔ ∃ i, i < offs.length ∧ offs.getD i 0 = j) := by
  obtain ⟨hlen, hnone, hsome⟩ := cRun_inv offs sched
  cases hslot : (cRun offs sched).slot with
  | none =>
    exfalso
    have h0 : (cRun offs sched).pcs ≠ [] := by
      intro hnil
      rw [hnil] at hlen
      simp at hlen
      omega
    obtain ⟨pc, hpc⟩ := List.exists_mem_of_ne_nil _ h0
    rcases hnone hslot pc hpc with h | h <;> rw [hdone pc hpc] at h <;> cases h
  | some w =>
    refine ⟨w, rfl, fun j hj => ?_⟩
    rw [bitTestD, hsome w hslot j]
    constructor
    · rintro ⟨i, hi, _, hoff⟩
      exact ⟨i, hi, hoff⟩
    · rintro ⟨i, hi, hoff⟩
      refine ⟨i, hi, ?_, hoff⟩
      have hilen : i < (cRun offs sched).pcs.length := by rw [hlen]; exact hi
      have hmem : (cRun offs sched).pcs.getD i ThreadPC.done ∈ (cRun offs sched).pcs := by
        rw [List.getD_eq_getElem _ _ hilen]
        exact List.getElem_mem hilen
      exact hdone _ hmem

/-! ### Concrete instantiations

The configuration of the spec's bucket-isolation scenario: `Capacity = 2`,
`BitsetWidth = 4` (16 bits per bucket), 8-bit words (`wordBitsLog = 3`, two
words per bucket), `MaxTries = 32`. -/

def demoConfig : Config := ⟨2, 4, 3, 32⟩

theorem set_then_test_yes_witness :
    atomic_bitset.test demoConfig
      (applyOps demoConfig
        (atomic_bitset.set demoConfig (atomic_bitset.mkEmpty demoConfig) 5).2
        [Op.set 13, Op.reset 6, Op.test 5, Op.set 16]) 5 = .yes :=
  set_then_test_yes demoConfig (atomic_bitset.mkEmpty demoConfig) 5
    [Op.set 13, Op.reset 6, Op.test 5, Op.set 16]
    (by decide) (by decide) (by decide) (by decide) (by decide)

theorem reset_then_test_no_witness :
    atomic_bitset.test demoConfig
      (atomic_bitset.reset demoConfig
        (atomic_bitset.set demoConfig (atomic_bitset.mkEmpty demoConfig) 5).2 5).2 5
      = .no :=
  reset_then_test_no demoConfig
    (atomic_bitset.set demoConfig (atomic_bitset.mkEmpty demoConfig) 5).2 5
    (by decide) (by decide) (by decide)

theorem bulk_reset_clears_witness :
    (atomic_bitset.resetAll
      (atomic_bitset.set demoConfig (atomic_bitset.mkEmpty demoConfig) 5).2).1
      = .success ∧
    atomic_bitset.test demoConfig
      (atomic_bitset.resetAll
        (atomic_bitset.set demoConfig (atomic_bitset.mkEmpty demoConfig) 5).2).2 5
      = .no :=
  bulk_reset_clears demoConfig
    (atomic_bitset.set demoConfig (atomic_bitset.mkEmpty demoConfig) 5).2 5
    (by decide) (by decide) (by decide)

theorem reachable_identity_tag_witness :
    (⟨0, [32, 0]⟩ : BitSetElement).cardinality = 0 :=
  reachable_identity_tag demoConfig
    (applyOps demoConfig (atomic_bitset.mkEmpty demoConfig) [Op.set 5])
    (by decide) ⟨[Op.set 5], by decide, rfl⟩ 0 ⟨0, [32, 0]⟩ (by decide) (by decide)

theorem valid_ops_never_fail_witness :
    (atomic_bitset.set demoConfig (atomic_bitset.mkEmpty demoConfig) 5).1 = .success ∧
    (atomic_bitset.reset demoConfig (atomic_bitset.mkEmpty demoConfig) 5).1 = .success ∧
    atomic_bitset.test demoConfig (atomic_bitset.mkEmpty demoConfig) 5 ≠ .not_found :=
  valid_ops_never_fail demoConfig (atomic_bitset.mkEmpty demoConfig) 5
    (by decide) (by decide) (by decide)

theorem slot_monotone_witness :
    ∃ e', (applyOp demoConfig
        (atomic_bitset.set demoConfig (atomic_bitset.mkEmpty demoConfig) 5).2
        Op.resetAll).elements.getD 0 none = some e' ∧
      e'.cardinality = (⟨0, [32, 0]⟩ : BitSetElement).cardinality :=
  slot_monotone demoConfig
    (atomic_bitset.set demoConfig (atomic_bitset.mkEmpty demoConfig) 5).2
    Op.resetAll 0 ⟨0, [32, 0]⟩ (by decide)

theorem set_frame_witness :
    atomic_bitset.test demoConfig
      (atomic_bitset.set demoConfig
        (atomic_bitset.set demoConfig (atomic_bitset.mkEmpty demoConfig) 5).2 16).2 5
      = atomic_bitset.test demoConfig
        (atomic_bitset.set demoConfig (atomic_bitset.mkEmpty demoConfig) 5).2 5 :=
  set_frame demoConfig
    (atomic_bitset.set demoConfig (atomic_bitset.mkEmpty demoConfig) 5).2 16 5
    (by decide) (by decide) (by decide) (by decide) (by decide)

theorem reset_unallocated_noop_witness :
    atomic_bitset.reset demoConfig
      (atomic_bitset.set demoConfig (atomic_bitset.mkEmpty demoConfig) 5).2 16
      = (.success, (atomic_bitset.set demoConfig (atomic_bitset.mkEmpty demoConfig) 5).2) :=
  reset_unallocated_noop demoConfig
    (atomic_bitset.set demoConfig (atomic_bitset.mkEmpty demoConfig) 5).2 16
    (by decide) (by decide) (by decide)

theorem concurrent_set_no_lost_update_witness :
    ∃ w, (cRun [1, 5] [0, 0, 1, 1]).slot = some w ∧
      ∀ j, j < 8 →
        (((w &&& 1 <<< j) != 0) = true
          ↔ ∃ i, i < ([1, 5] : List Nat).length ∧ ([1, 5] : List Nat).getD i 0 = j) :=
  concurrent_set_no_lost_update 8 [1, 5] [0, 0, 1, 1]
    (by decide) (by decide) (by decide) (by decide)

end Lockfree
